import Mathlib

/-!
Verification of the weaver-bird asset-resolution core.

The Rust sources under `src-tauri/src/util/` are shallowly embedded here:
Rust `String`/`&str` becomes `List Char`, `HashMap<String, V>` becomes an
association list `List (Str × V)` whose well-formedness invariant is that
keys are duplicate-free, fallible functions return `Except`/`Option`, and
the filesystem state touched by the baseline cache becomes an explicit
record threaded through the functions.  Every definition mirrors the
corresponding Rust item and carries its name where Lean permits it.
-/

set_option autoImplicit false

namespace WeaverBird

/-- Rust strings are modelled as lists of characters. -/
abbrev Str := List Char

/-! ## String primitives (Rust `str` methods used by the sources) -/

/-- Rust `str::starts_with`: `starts_with s pat` is true when `pat` is a
prefix of `s`, matched character by character. -/
def starts_with : Str → Str → Bool
  | _, [] => true
  | [], _ :: _ => false
  | c :: cs, p :: ps => c == p && starts_with cs ps

/-- Rust `str::ends_with`, via reversal. -/
def ends_with (s pat : Str) : Bool :=
  starts_with s.reverse pat.reverse

/-- Rust `str.splitn(2, c)` when it produces two pieces: split at the first
occurrence of `c`; `none` when `c` does not occur (Rust then yields a single
piece). -/
def split_first (c : Char) : Str → Option (Str × Str)
  | [] => none
  | x :: xs =>
    if x == c then some ([], xs)
    else
      match split_first c xs with
      | some (l, r) => some (x :: l, r)
      | none => none

/-- Rust `str.rfind(c)` followed by slicing: split at the last occurrence
of `c`; `none` when `c` does not occur. -/
def split_last (c : Char) : Str → Option (Str × Str)
  | [] => none
  | x :: xs =>
    match split_last c xs with
    | some (l, r) => some (x :: l, r)
    | none => if x == c then some ([], xs) else none

/-- Rust `str.split(c)`: all pieces, empty pieces kept. -/
def split_all (c : Char) : Str → List Str
  | [] => [[]]
  | x :: xs =>
    if x == c then [] :: split_all c xs
    else
      match split_all c xs with
      | [] => [[x]]
      | l :: ls => (x :: l) :: ls

/-! ## Association-list model of `std::collections::HashMap`

A Rust `HashMap` is represented by its entry list.  The representation
invariant (`keys_nodup`) is that no key occurs twice; every map actually
built by the embedded code preserves it. -/

/-- `HashMap::get`: first entry with the given key. -/
def hm_get {α : Type} : List (Str × α) → Str → Option α
  | [], _ => none
  | (k0, v) :: rest, k => if k0 == k then some v else hm_get rest k

/-- `HashMap::insert`: replace the entry holding the key, or append a new
entry. -/
def hm_insert {α : Type} : List (Str × α) → Str → α → List (Str × α)
  | [], k, v => [(k, v)]
  | (k0, v0) :: rest, k, v =>
    if k0 == k then (k0, v) :: rest else (k0, v0) :: hm_insert rest k v

/-- `HashMap::extend`: insert every entry of `child` into `parent`
(child entries overwrite same-named parent entries). -/
def hm_extend {α : Type} (parent child : List (Str × α)) : List (Str × α) :=
  child.foldl (fun acc kv => hm_insert acc kv.1 kv.2) parent

/-- `map.entry(k).or_insert_with(Vec::new).push(v)` — the accumulation idiom
of `index_zip_pack` / `index_folder_pack` / the provider map. -/
def map_push {α : Type} : List (Str × List α) → Str → α → List (Str × List α)
  | [], k, v => [(k, [v])]
  | (k0, vs) :: rest, k, v =>
    if k0 == k then (k0, vs ++ [v]) :: rest else (k0, vs) :: map_push rest k v

/-- Keys of the association list are duplicate-free — the `HashMap`
representation invariant. -/
def keys_nodup {α : Type} (m : List (Str × α)) : Prop :=
  (m.map Prod.fst).Nodup

instance {α : Type} (m : List (Str × α)) : Decidable (keys_nodup m) := by
  unfold keys_nodup; infer_instance

/-! ## `util/asset_indexer.rs` -/

def ASSET_PATH_PREFIX : Str := "assets/".data

def TEXTURE_PATH : Str := "textures/".data

/-- `extract_asset_id` (asset_indexer.rs): accept only
`assets/<namespace>/textures/<subpath>.<ext>` and map it to
`<namespace>:<subpath>`, extension stripped at the last dot. -/
def extract_asset_id (file_path : Str) : Option Str :=
  if starts_with file_path ASSET_PATH_PREFIX then
    let after_assets := file_path.drop ASSET_PATH_PREFIX.length
    match split_first '/' after_assets with
    | none => none
    | some (ns, rest) =>
      if starts_with rest TEXTURE_PATH then
        let texture_path := rest.drop TEXTURE_PATH.length
        let asset_path :=
          match split_last '.' texture_path with
          | some (l, _) => l
          | none => texture_path
        some (ns ++ ':' :: asset_path)
      else none
  else none

/-- `extract_labels` (asset_indexer.rs): namespace, then every non-empty
path component after the colon. -/
def extract_labels (asset_id : Str) : List Str :=
  let ns_labels : List Str :=
    match split_first ':' asset_id with
    | some (ns, _) => [ns]
    | none => []
  let path_part : Str :=
    match split_first ':' asset_id with
    | some (_, rest) => rest
    | none => asset_id
  ns_labels ++ (split_all '/' path_part).filter (fun comp => !comp.isEmpty)

/-- A scanned pack: its id together with the file listing its enumeration
produces (`list_zip_files` for archives, the directory walk otherwise).
Only these two aspects of `PackMeta` reach the indexer's accumulation
logic. -/
structure Pack where
  id : Str
  files : List Str
deriving DecidableEq

/-- `AssetRecord` (model.rs, reconstructed from its uses in
asset_indexer.rs): identifier, derived labels, file-path list. -/
structure AssetRecord where
  id : Str
  labels : List Str
  files : List Str
deriving DecidableEq

/-- The body of `index_zip_pack` / `index_folder_pack` after enumeration:
group accepted files by their asset id, in enumeration order. -/
def index_pack (files : List Str) : List (Str × List Str) :=
  files.foldl
    (fun m file =>
      match extract_asset_id file with
      | some asset_id => map_push m asset_id file
      | none => m)
    []

/-- The `and_modify` closure of `index_assets`: push each incoming file
that the record does not already list. -/
def record_merge (record : AssetRecord) (files : List Str) : AssetRecord :=
  { record with
    files := files.foldl
      (fun fs file => if fs.contains file then fs else fs ++ [file])
      record.files }

/-- `assets_map.entry(id).and_modify(..).or_insert_with(..)` of
`index_assets`. -/
def assets_insert (m : List (Str × AssetRecord)) (asset_id : Str)
    (files : List Str) : List (Str × AssetRecord) :=
  match m with
  | [] => [(asset_id,
      { id := asset_id, labels := extract_labels asset_id, files := files })]
  | (k, r) :: rest =>
    if k == asset_id then (k, record_merge r files) :: rest
    else (k, r) :: assets_insert rest asset_id files

/-- Lexicographic comparison on `Str`, modelling Rust `String::cmp` used by
`assets.sort_by`. -/
def str_le : Str → Str → Bool
  | [], _ => true
  | _ :: _, [] => false
  | a :: as0, b :: bs => if a = b then str_le as0 bs else decide (a < b)

/-- Insertion step of the (stable) sort on records by id. -/
def insert_record (r : AssetRecord) : List AssetRecord → List AssetRecord
  | [] => [r]
  | r0 :: rest =>
    if str_le r0.id r.id then r0 :: insert_record r rest else r :: r0 :: rest

/-- `assets.sort_by(|a, b| a.id.cmp(&b.id))`. -/
def sort_records : List AssetRecord → List AssetRecord
  | [] => []
  | r :: rest => insert_record r (sort_records rest)

/-- The indexer's accumulated state: the record map and the provider map. -/
abbrev IndexState := List (Str × AssetRecord) × List (Str × List Str)

/-- One iteration of the inner loop of `index_assets`: merge one asset
entry of the current pack into both maps. -/
def index_step (pid : Str) (st : IndexState) (entry : Str × List Str) :
    IndexState :=
  (assets_insert st.1 entry.1 entry.2, map_push st.2 entry.1 pid)

/-- One iteration of the outer loop of `index_assets`: fold one pack's
grouped assets into the state. -/
def index_pack_step (st : IndexState) (pack : Pack) : IndexState :=
  (index_pack pack.files).foldl (index_step pack.id) st

/-- `index_assets` (asset_indexer.rs): accumulate, across packs in input
order, the merged record map and the provider map, then return the records
sorted by id together with the providers. -/
def index_assets (packs : List Pack) :
    List AssetRecord × List (Str × List Str) :=
  let st := packs.foldl index_pack_step ([], [])
  (sort_records (st.1.map Prod.snd), st.2)

/-- Equality of `Except` results is decidable when it is on both sides. -/
instance exceptDecEq {ε α : Type} [DecidableEq ε] [DecidableEq α] :
    DecidableEq (Except ε α) := fun x y =>
  match x, y with
  | .ok a, .ok b =>
    if h : a = b then .isTrue (by rw [h])
    else .isFalse (fun hc => h (Except.ok.inj hc))
  | .error a, .error b =>
    if h : a = b then .isTrue (by rw [h])
    else .isFalse (fun hc => h (Except.error.inj hc))
  | .ok _, .error _ => .isFalse (fun hc => Except.noConfusion hc)
  | .error _, .ok _ => .isFalse (fun hc => Except.noConfusion hc)

/-! ## `error.rs` -/

/-- `AppError` (error.rs): code, message, optional details. -/
structure AppError where
  code : Str
  message : Str
  details : Option Str
deriving DecidableEq

/-- `AppError::validation`. -/
def AppError.validation (message : Str) : AppError :=
  { code := "VALIDATION_ERROR".data, message := message, details := none }

/-! ## `util/block_models.rs` -/

/-- An `f32` value carried opaquely as its 32-bit pattern; the embedded
code moves these values around but never computes with or compares them. -/
structure F32 where
  bits : Nat
deriving DecidableEq

/-- `ElementRotation` (block_models.rs). -/
structure ElementRotation where
  origin : F32 × F32 × F32
  axis : Str
  angle : F32
  rescale : Option Bool
deriving DecidableEq

/-- `ElementFace` (block_models.rs). -/
structure ElementFace where
  texture : Str
  uv : Option (F32 × F32 × F32 × F32)
  rotation : Option Nat
  cullface : Option Str
  tintindex : Option Int
deriving DecidableEq

/-- `ModelElement` (block_models.rs); `from` and `to` are Lean keywords,
hence `from0` and `to0`. -/
structure ModelElement where
  from0 : F32 × F32 × F32
  to0 : F32 × F32 × F32
  rotation : Option ElementRotation
  faces : List (Str × ElementFace)
  shade : Option Bool
deriving DecidableEq

/-- The texture-variable table of a model. -/
abbrev TextureMap := List (Str × Str)

/-- `BlockModel` (block_models.rs). -/
structure BlockModel where
  parent : Option Str
  textures : Option TextureMap
  elements : Option (List ModelElement)
  ambientocclusion : Option Bool
deriving DecidableEq

/-- `normalize_model_id`: a namespace-less id is assumed `minecraft`. -/
def normalize_model_id (model_id : Str) : Str :=
  if model_id.contains ':' then model_id else "minecraft:".data ++ model_id

/-- `model_id_to_path`: `<ns>:<path>` becomes
`assets/<ns>/models/<path>.json`. -/
def model_id_to_path (model_id : Str) : Str :=
  match split_all ':' model_id with
  | [ns, path] => "assets/".data ++ ns ++ "/models/".data ++ path ++ ".json".data
  | _ => "assets/minecraft/models/".data ++ model_id ++ ".json".data

/-- The error `read_block_model` produces when the model file is absent
(direct-file branch; the archive branch differs only in wording after
"Model not found"). -/
def model_not_found_error (model_id : Str) : AppError :=
  AppError.validation
    ("Model not found: ".data ++ model_id_to_path (normalize_model_id model_id))

/-- The error `resolve_block_model_with_depth` produces when the parent
chain exceeds `MAX_DEPTH`. -/
def depth_error (model_id : Str) : AppError :=
  AppError.validation
    ("Model parent chain too deep (possible circular reference): ".data
      ++ model_id)

/-- `merge_models` (block_models.rs): child texture entries overwrite
same-named parent entries, child elements wholesale-replace parent
elements, child ambient occlusion overrides when present, and the parent
link is cleared. -/
def merge_models (parent child : BlockModel) : BlockModel :=
  { parent := none
    textures :=
      match child.textures with
      | some ct =>
        match parent.textures with
        | some pt => some (hm_extend pt ct)
        | none => some ct
      | none => parent.textures
    elements :=
      match child.elements with
      | some ce => some ce
      | none => parent.elements
    ambientocclusion :=
      match child.ambientocclusion with
      | some b => some b
      | none => parent.ambientocclusion }

/-- The model store seen by the resolver: for each model id, the model that
`read_block_model_with_fallback` would load (active pack first, baseline
cache second), or `none` when both sources miss. -/
abbrev ModelEnv := Str → Option BlockModel

/-- `MAX_DEPTH` (resolve_block_model_with_depth). -/
def MAX_DEPTH : Nat := 20

/-- The recursion of `resolve_block_model_with_depth`, with the remaining
allowance `MAX_DEPTH + 1 - depth` made an explicit structural fuel
argument: fuel `0` is exactly the Rust guard `depth > MAX_DEPTH`. -/
def resolveFuel (env : ModelEnv) : Str → Nat → Except AppError BlockModel
  | model_id, 0 => .error (depth_error model_id)
  | model_id, fuel + 1 =>
    match env model_id with
    | none => .error (model_not_found_error model_id)
    | some model =>
      match model.parent with
      | some parent_id =>
        match resolveFuel env parent_id fuel with
        | .ok parent_model => .ok (merge_models parent_model model)
        | .error e => .error e
      | none => .ok model

/-- `resolve_block_model_with_depth` (block_models.rs). -/
def resolve_block_model_with_depth (env : ModelEnv) (model_id : Str)
    (depth : Nat) : Except AppError BlockModel :=
  resolveFuel env model_id (MAX_DEPTH + 1 - depth)

/-- `resolve_block_model` (block_models.rs): resolution starts at depth 0. -/
def resolve_block_model (env : ModelEnv) (model_id : Str) :
    Except AppError BlockModel :=
  resolve_block_model_with_depth env model_id 0

/-- `value.starts_with('#')`. -/
def starts_hash : Str → Bool
  | '#' :: _ => true
  | _ => false

/-- `value.trim_start_matches('#')`: drop every leading hash. -/
def trim_hash (s : Str) : Str :=
  s.dropWhile (fun c => c == '#')

/-- `MAX_ITERATIONS` of the chase loop in `resolve_textures`. -/
def MAX_ITERATIONS : Nat := 10

/-- The `while` loop of `resolve_textures`: chase a `#reference` value,
one lookup per remaining iteration; stop on a non-reference value, on a
missing target, or when the allowance runs out. -/
def chase (textures : TextureMap) : Str → Nat → Str
  | current, 0 => current
  | current, n + 1 =>
    if starts_hash current then
      match hm_get textures (trim_hash current) with
      | some v => chase textures v n
      | none => current
    else current

/-- `resolve_textures` (block_models.rs): rebuild the table with every
value chased for up to `MAX_ITERATIONS` hops; never fails. -/
def resolve_textures (model : BlockModel) : TextureMap :=
  match model.textures with
  | none => []
  | some textures =>
    textures.map (fun kv => (kv.1, chase textures kv.2 MAX_ITERATIONS))

/-! ## `util/blockstates.rs` -/

/-- `ModelReference` (blockstates.rs). -/
structure ModelReference where
  model : Str
  x : Option Int
  y : Option Int
  uvlock : Option Bool
  weight : Option Int
deriving DecidableEq

/-- `BlockstateVariant` (blockstates.rs): single or weighted-list valued. -/
inductive BlockstateVariant where
  | Single : ModelReference → BlockstateVariant
  | Multiple : List ModelReference → BlockstateVariant
deriving DecidableEq

/-- `MultipartCase` (blockstates.rs); the `when` condition is an arbitrary
JSON value of which the code only inspects presence, modelled as an opaque
string; `when` clashes with Lean syntax, hence `when0`. -/
structure MultipartCase where
  when0 : Option Str
  apply : BlockstateVariant
deriving DecidableEq

/-- `Blockstate` (blockstates.rs). -/
structure Blockstate where
  variants : Option (List (Str × BlockstateVariant))
  multipart : Option (List MultipartCase)
deriving DecidableEq

/-- `extract_first_model` (blockstates.rs): a single reference, or the
first element of a weighted list (weight unused). -/
def extract_first_model (variant : BlockstateVariant) : Option Str :=
  match variant with
  | .Single model_ref => some model_ref.model
  | .Multiple models => models.head?.map (fun m => m.model)

/-- `get_default_model` (blockstates.rs): the empty-string variant key,
then `"normal"`, then the first variant; otherwise the first unconditional
multipart case, then the first case outright; otherwise nothing. -/
def get_default_model (blockstate : Blockstate) : Option Str :=
  match blockstate.variants with
  | some variants =>
    match hm_get variants "".data with
    | some variant => extract_first_model variant
    | none =>
      match hm_get variants "normal".data with
      | some variant => extract_first_model variant
      | none =>
        match variants.head? with
        | some kv => extract_first_model kv.2
        | none =>
          match blockstate.multipart with
          | some multipart =>
            match multipart.find? (fun part => part.when0.isNone) with
            | some part => extract_first_model part.apply
            | none =>
              match multipart.head? with
              | some first_part => extract_first_model first_part.apply
              | none => none
          | none => none
  | none =>
    match blockstate.multipart with
    | some multipart =>
      match multipart.find? (fun part => part.when0.isNone) with
      | some part => extract_first_model part.apply
      | none =>
        match multipart.head? with
        | some first_part => extract_first_model first_part.apply
        | none => none
    | none => none

/-! ## `util/vanilla_textures.rs`

The filesystem state the baseline cache touches is made explicit: the
presence of the `.extracted_v2` marker, the cached file paths, and the
entry listing of the located game JAR (`none` when no installation is
found).  Each entry records whether extracting it succeeds.  The parallel
`try_for_each` is modelled by its join semantics: the batch succeeds only
when every entry succeeds, any failure fails the batch. -/

/-- One JAR entry: its path and whether its extraction succeeds. -/
structure ZipEntry where
  path : Str
  ok : Bool
deriving DecidableEq

/-- The cache-relevant filesystem state. -/
structure CacheFS where
  marker : Bool
  cacheFiles : List Str
  jar : Option (List ZipEntry)
deriving DecidableEq

/-- The fixed cache root `<platform-cache-dir>/weaverbird/vanilla_textures`
returned by `get_vanilla_cache_dir`. -/
def vanilla_cache_dir : Str := "weaverbird/vanilla_textures".data

/-- The entry filter of `extract_vanilla_textures`: textures (PNG), models
(JSON) and blockstates (JSON) under `assets/minecraft/`. -/
def should_extract (file_path : Str) : Bool :=
  (starts_with file_path "assets/minecraft/textures/".data
      && ends_with file_path ".png".data)
    || (starts_with file_path "assets/minecraft/models/".data
      && ends_with file_path ".json".data)
    || (starts_with file_path "assets/minecraft/blockstates/".data
      && ends_with file_path ".json".data)

/-- The extraction batch over the selected entries: returns the outcome,
the resulting state, and the number of entries whose extraction was
performed.  The first failing entry fails the whole batch. -/
def extract_entries : CacheFS → List ZipEntry → Except Str Unit × CacheFS × Nat
  | fs, [] => (.ok (), fs, 0)
  | fs, e :: rest =>
    if e.ok then
      let next := extract_entries
        { fs with cacheFiles := fs.cacheFiles ++ [e.path] } rest
      (next.1, next.2.1, next.2.2 + 1)
    else (.error "Failed to read from JAR".data, fs, 1)

/-- `extract_vanilla_textures` (vanilla_textures.rs): short-circuit on the
marker; otherwise wipe the cache, extract every selected entry, and write
the marker only when the whole batch succeeded. -/
def extract_vanilla_textures (fs : CacheFS) (entries : List ZipEntry) :
    Except Str Str × CacheFS × Nat :=
  if fs.marker then (.ok vanilla_cache_dir, fs, 0)
  else
    let cleaned : CacheFS := { fs with cacheFiles := [] }
    let files_to_extract := entries.filter (fun e => should_extract e.path)
    match extract_entries cleaned files_to_extract with
    | (.ok _, fs2, n) => (.ok vanilla_cache_dir, { fs2 with marker := true }, n)
    | (.error e, fs2, n) => (.error e, fs2, n)

/-- The source function `initialize_vanilla_textures`
(vanilla_textures.rs): return the cache path at once when the marker is
present, otherwise locate the newest game JAR and extract from it. -/
def init_vanilla_textures (fs : CacheFS) : Except Str Str × CacheFS × Nat :=
  if fs.marker then (.ok vanilla_cache_dir, fs, 0)
  else
    match fs.jar with
    | none =>
      (.error "Could not find Minecraft installation".data, fs, 0)
    | some entries => extract_vanilla_textures fs entries

/-! ## String lemmas -/

theorem starts_with_append (pre rest : Str) :
    starts_with (pre ++ rest) pre = true := by
  induction pre with
  | nil => cases rest <;> rfl
  | cons c cs ih => simp [starts_with, ih]

theorem starts_with_exists {s pre : Str} (h : starts_with s pre = true) :
    ∃ rest, s = pre ++ rest := by
  induction pre generalizing s with
  | nil => exact ⟨s, rfl⟩
  | cons p ps ih =>
    cases s with
    | nil => simp [starts_with] at h
    | cons c cs =>
      simp only [starts_with, Bool.and_eq_true, beq_iff_eq] at h
      obtain ⟨rest, hr⟩ := ih h.2
      exact ⟨rest, by simp [h.1, hr]⟩

theorem split_first_append (c : Char) (l r : Str) (h : c ∉ l) :
    split_first c (l ++ c :: r) = some (l, r) := by
  induction l with
  | nil => simp [split_first]
  | cons x xs ih =>
    have hx : ¬ x = c := fun hh => h (by simp [hh])
    have hxs : c ∉ xs := fun hh => h (List.mem_cons_of_mem _ hh)
    simp [split_first, hx, ih hxs]

theorem split_first_eq_some {c : Char} {s l r : Str}
    (h : split_first c s = some (l, r)) : s = l ++ c :: r ∧ c ∉ l := by
  induction s generalizing l r with
  | nil => simp [split_first] at h
  | cons x xs ih =>
    by_cases hx : x = c
    · subst hx
      simp [split_first] at h
      obtain ⟨hl, hr⟩ := h
      subst hl; subst hr
      exact ⟨rfl, by simp⟩
    · rw [split_first] at h
      simp only [beq_iff_eq, hx, if_false] at h
      cases hsf : split_first c xs with
      | none => rw [hsf] at h; simp at h
      | some lr =>
        obtain ⟨l0, r0⟩ := lr
        rw [hsf] at h
        simp only [Option.some.injEq, Prod.mk.injEq] at h
        obtain ⟨hl, hr⟩ := h
        obtain ⟨hs, hnotin⟩ := ih hsf
        subst hl; subst hr
        refine ⟨by simp [hs], ?_⟩
        intro hmem
        rcases List.mem_cons.mp hmem with h1 | h1
        · exact hx h1.symm
        · exact hnotin h1

theorem split_last_eq_none {c : Char} {s : Str} (h : c ∉ s) :
    split_last c s = none := by
  induction s with
  | nil => rfl
  | cons x xs ih =>
    have hx : ¬ x = c := fun hh => h (by simp [hh])
    have hxs : c ∉ xs := fun hh => h (List.mem_cons_of_mem _ hh)
    simp [split_last, ih hxs, hx]

theorem split_last_append (c : Char) (l r : Str) (h : c ∉ r) :
    split_last c (l ++ c :: r) = some (l, r) := by
  induction l with
  | nil => simp [split_last, split_last_eq_none h]
  | cons x xs ih => simp [split_last, ih]

theorem slash_textures_lit : "/textures/".data = '/' :: "textures/".data := by
  decide

/-! ## C5 -/

/-- C5: every path shaped `assets/<ns>/textures/<p>.<ext>` (namespace
free of `/`, extension free of `.`) maps to identifier `<ns>:<p>` with the
extension stripped, and every path not of the shape
`assets/<ns>/textures/<anything>` maps to nothing. -/
theorem c5_extract_asset_id_spec :
    (∀ ns p ext : Str, '/' ∉ ns → '.' ∉ ext →
      extract_asset_id
          ("assets/".data ++ ns ++ "/textures/".data ++ p ++ '.' :: ext)
        = some (ns ++ ':' :: p)) ∧
    (∀ file_path : Str,
      (∀ ns rest : Str, '/' ∉ ns →
        file_path ≠ "assets/".data ++ ns ++ "/textures/".data ++ rest) →
      extract_asset_id file_path = none) := by
  constructor
  · intro ns p ext hns hext
    have h1 : starts_with
        ("assets/".data ++ ns ++ "/textures/".data ++ p ++ '.' :: ext)
        ASSET_PATH_PREFIX = true :=
      starts_with_append "assets/".data _
    have e1 : ("assets/".data ++ ns ++ "/textures/".data ++ p ++ '.' :: ext).drop
        ASSET_PATH_PREFIX.length = ns ++ "/textures/".data ++ p ++ '.' :: ext :=
      List.drop_left "assets/".data _
    have e2 : split_first '/' (ns ++ "/textures/".data ++ p ++ '.' :: ext)
        = some (ns, "textures/".data ++ p ++ '.' :: ext) := by
      have hshift : ns ++ "/textures/".data ++ p ++ '.' :: ext
          = ns ++ '/' :: ("textures/".data ++ p ++ '.' :: ext) := by
        rw [slash_textures_lit]; simp
      rw [hshift]
      exact split_first_append '/' ns _ hns
    have h2 : starts_with ("textures/".data ++ p ++ '.' :: ext)
        TEXTURE_PATH = true :=
      starts_with_append "textures/".data _
    have e3 : ("textures/".data ++ p ++ '.' :: ext).drop TEXTURE_PATH.length
        = p ++ '.' :: ext :=
      List.drop_left "textures/".data _
    have e4 : split_last '.' (p ++ '.' :: ext) = some (p, ext) :=
      split_last_append '.' p ext hext
    simp only [extract_asset_id]
    rw [if_pos h1, e1, e2]
    dsimp only
    rw [if_pos h2, e3, e4]
  · intro file_path hshape
    by_cases h1 : starts_with file_path ASSET_PATH_PREFIX = true
    case neg => simp [extract_asset_id, h1]
    case pos =>
      obtain ⟨after, hafter⟩ := starts_with_exists h1
      cases hsf : split_first '/' (file_path.drop ASSET_PATH_PREFIX.length) with
      | none => simp [extract_asset_id, h1, hsf]
      | some nsrest =>
        obtain ⟨ns, rest⟩ := nsrest
        obtain ⟨heq, hnotin⟩ := split_first_eq_some hsf
        by_cases h2 : starts_with rest TEXTURE_PATH = true
        case neg => simp [extract_asset_id, h1, hsf, h2]
        case pos =>
          obtain ⟨tp, htp⟩ := starts_with_exists h2
          exfalso
          apply hshape ns tp hnotin
          have hdrop : file_path.drop ASSET_PATH_PREFIX.length = after := by
            rw [hafter]; exact List.drop_left _ _
          rw [hdrop] at heq
          rw [hafter, heq, htp]
          simp [ASSET_PATH_PREFIX, TEXTURE_PATH]

/-- C5 witness: the stone texture path maps to its identifier; applying the
first component of the theorem at concrete inputs. -/
theorem c5_witness :
    ('/' ∉ "minecraft".data ∧ '.' ∉ "png".data) ∧
    extract_asset_id
        ("assets/".data ++ "minecraft".data ++ "/textures/".data
          ++ "block/stone".data ++ '.' :: "png".data)
      = some ("minecraft".data ++ ':' :: "block/stone".data) :=
  ⟨by decide,
   c5_extract_asset_id_spec.1 "minecraft".data "block/stone".data "png".data
     (by decide) (by decide)⟩

/-! ## Resolver lemmas, C1 and C9 -/

theorem resolveFuel_self_parent (env : ModelEnv) (model_id : Str)
    (m : BlockModel) (h1 : env model_id = some m)
    (h2 : m.parent = some model_id) :
    ∀ fuel, resolveFuel env model_id fuel = .error (depth_error model_id) := by
  intro fuel
  induction fuel with
  | zero => rfl
  | succ n ih => simp only [resolveFuel, h1, h2, ih]

theorem resolveFuel_ok_parent_none (env : ModelEnv) :
    ∀ (fuel : Nat) (model_id : Str) (m : BlockModel),
      resolveFuel env model_id fuel = .ok m → m.parent = none := by
  intro fuel
  induction fuel with
  | zero => intro model_id m h; exact absurd h (by simp [resolveFuel])
  | succ n ih =>
    intro model_id m h
    rw [resolveFuel] at h
    cases henv : env model_id with
    | none => simp [henv] at h
    | some model =>
      simp only [henv] at h
      cases hpar : model.parent with
      | some parent_id =>
        simp only [hpar] at h
        cases hrec : resolveFuel env parent_id n with
        | ok parent_model =>
          simp only [hrec, Except.ok.injEq] at h
          rw [← h]
          rfl
        | error e => simp [hrec] at h
      | none =>
        simp only [hpar, Except.ok.injEq] at h
        rw [← h]
        exact hpar

/-- C1: resolution is total — for every model environment, including a
self- or ancestor-referencing one, `resolve_block_model` yields either a
merged model or an error (totality is by construction: the depth counter
bounds the recursion); a model naming itself as parent fails with the
depth-exceeded error; and the depth-exceeded error differs from the
not-found error for every pair of model ids. -/
theorem c1_resolution_terminates :
    (∀ (env : ModelEnv) (model_id : Str),
      (∃ m, resolve_block_model env model_id = .ok m) ∨
      (∃ e, resolve_block_model env model_id = .error e)) ∧
    (∀ (env : ModelEnv) (model_id : Str) (m : BlockModel),
      env model_id = some m → m.parent = some model_id →
      resolve_block_model env model_id = .error (depth_error model_id)) ∧
    (∀ id1 id2 : Str, depth_error id1 ≠ model_not_found_error id2) := by
  refine ⟨?_, ?_, ?_⟩
  · intro env model_id
    cases h : resolve_block_model env model_id with
    | ok m => exact Or.inl ⟨m, rfl⟩
    | error e => exact Or.inr ⟨e, rfl⟩
  · intro env model_id m h1 h2
    exact resolveFuel_self_parent env model_id m h1 h2 _
  · intro id1 id2 h
    simp only [depth_error, model_not_found_error, AppError.validation,
      AppError.mk.injEq] at h
    obtain ⟨-, h, -⟩ := h
    simp at h

/-- C1 witness: a model whose parent is itself resolves to the
depth-exceeded error, applying the second component of the theorem. -/
def model_self : BlockModel :=
  { parent := some "minecraft:block/selfy".data
    textures := none, elements := none, ambientocclusion := none }

def env_self : ModelEnv := fun s =>
  if s == "minecraft:block/selfy".data then some model_self else none

theorem c1_witness :
    (env_self "minecraft:block/selfy".data = some model_self ∧
      model_self.parent = some "minecraft:block/selfy".data) ∧
    resolve_block_model env_self "minecraft:block/selfy".data
      = .error (depth_error "minecraft:block/selfy".data) :=
  ⟨⟨by decide, by decide⟩,
   c1_resolution_terminates.2.1 env_self "minecraft:block/selfy".data
     model_self (by decide) (by decide)⟩

/-- C9: every model returned successfully by `resolve_block_model` has its
parent link cleared, whether or not the loaded model had a parent chain. -/
theorem c9_resolved_parent_none (env : ModelEnv) (model_id : Str)
    (m : BlockModel) (h : resolve_block_model env model_id = .ok m) :
    m.parent = none :=
  resolveFuel_ok_parent_none env _ model_id m h

/-- C9 witness: a chained model resolves successfully and the result's
parent is `none`, via the theorem. -/
def model_base : BlockModel :=
  { parent := none
    textures := some [("all".data, "minecraft:block/dirt".data)]
    elements := none, ambientocclusion := none }

def model_child : BlockModel :=
  { parent := some "minecraft:block/base".data
    textures := some [("side".data, "minecraft:block/stone".data)]
    elements := none, ambientocclusion := none }

def env_chain : ModelEnv := fun s =>
  if s == "minecraft:block/base".data then some model_base
  else if s == "minecraft:block/child".data then some model_child
  else none

theorem c9_witness :
    resolve_block_model env_chain "minecraft:block/child".data
        = .ok (merge_models model_base model_child) ∧
    (merge_models model_base model_child).parent = none :=
  ⟨by decide,
   c9_resolved_parent_none env_chain "minecraft:block/child".data
     (merge_models model_base model_child) (by decide)⟩

/-! ## HashMap-model lemmas -/

theorem hm_get_eq_none_of_not_mem {α : Type} (t : List (Str × α)) (k : Str)
    (h : k ∉ t.map Prod.fst) : hm_get t k = none := by
  induction t with
  | nil => rfl
  | cons kv rest ih =>
    obtain ⟨k0, v0⟩ := kv
    simp only [List.map_cons, List.mem_cons, not_or] at h
    have hne : ¬ k0 = k := fun hh => h.1 hh.symm
    simp only [hm_get, beq_iff_eq, hne, if_false]
    exact ih h.2

theorem hm_get_hm_insert {α : Type} (t : List (Str × α)) (k k2 : Str)
    (v : α) :
    hm_get (hm_insert t k v) k2 = if k2 = k then some v else hm_get t k2 := by
  induction t with
  | nil =>
    by_cases h : k2 = k
    · subst h; simp [hm_insert, hm_get]
    · have hne : ¬ k = k2 := fun hh => h hh.symm
      simp [hm_insert, hm_get, h, hne]
  | cons kv rest ih =>
    obtain ⟨k0, v0⟩ := kv
    by_cases h0 : k0 = k
    · subst h0
      by_cases h2 : k2 = k0
      · subst h2; simp [hm_insert, hm_get]
      · have hne : ¬ k0 = k2 := fun hh => h2 hh.symm
        simp [hm_insert, hm_get, h2, hne]
    · by_cases h2 : k0 = k2
      · have hk : ¬ k2 = k := fun hh => h0 (h2.trans hh)
        simp [hm_insert, hm_get, h0, h2, hk]
      · simp [hm_insert, hm_get, h0, h2, ih]

theorem keys_hm_insert {α : Type} (t : List (Str × α)) (k : Str) (v : α) :
    (hm_insert t k v).map Prod.fst =
      if k ∈ t.map Prod.fst then t.map Prod.fst
      else t.map Prod.fst ++ [k] := by
  induction t with
  | nil => simp [hm_insert]
  | cons kv rest ih =>
    obtain ⟨k0, v0⟩ := kv
    by_cases h0 : k0 = k
    · subst h0
      simp only [hm_insert, beq_self_eq_true, if_true, List.map_cons,
        List.mem_cons, true_or]
    · have hne : ¬ k = k0 := fun hh => h0 hh.symm
      simp only [hm_insert, beq_iff_eq, h0, if_false, List.map_cons, ih,
        List.mem_cons, List.cons_append]
      by_cases hmem : k ∈ rest.map Prod.fst
      · rw [if_pos hmem, if_pos (Or.inr hmem)]
      · rw [if_neg hmem, if_neg (fun hh => hh.elim hne hmem)]

theorem keys_nodup_hm_insert {α : Type} (t : List (Str × α)) (k : Str)
    (v : α) (h : keys_nodup t) : keys_nodup (hm_insert t k v) := by
  unfold keys_nodup at h ⊢
  rw [keys_hm_insert]
  by_cases hmem : k ∈ t.map Prod.fst
  · simpa [hmem] using h
  · simp only [hmem, if_false]
    simp [List.nodup_append, h, hmem]

theorem keys_nodup_hm_extend {α : Type} (p c : List (Str × α))
    (h : keys_nodup p) : keys_nodup (hm_extend p c) := by
  induction c generalizing p with
  | nil => exact h
  | cons kv rest ih =>
    exact ih (hm_insert p kv.1 kv.2) (keys_nodup_hm_insert p kv.1 kv.2 h)

theorem hm_get_hm_extend_none {α : Type} (p c : List (Str × α)) (k : Str)
    (h : hm_get c k = none) : hm_get (hm_extend p c) k = hm_get p k := by
  induction c generalizing p with
  | nil => rfl
  | cons kv rest ih =>
    obtain ⟨k0, v0⟩ := kv
    by_cases h0 : k0 = k
    · subst h0; simp [hm_get] at h
    · simp only [hm_get, beq_iff_eq, h0, if_false] at h
      have hstep : hm_extend p ((k0, v0) :: rest)
          = hm_extend (hm_insert p k0 v0) rest := rfl
      rw [hstep, ih (hm_insert p k0 v0) h, hm_get_hm_insert]
      have hne : ¬ k = k0 := fun hh => h0 hh.symm
      simp [hne]

theorem hm_get_hm_extend_some {α : Type} (p c : List (Str × α)) (k : Str)
    (v : α) (hc : keys_nodup c) (h : hm_get c k = some v) :
    hm_get (hm_extend p c) k = some v := by
  induction c generalizing p with
  | nil => simp [hm_get] at h
  | cons kv rest ih =>
    obtain ⟨k0, v0⟩ := kv
    simp only [keys_nodup, List.map_cons, List.nodup_cons] at hc
    have hstep : hm_extend p ((k0, v0) :: rest)
        = hm_extend (hm_insert p k0 v0) rest := rfl
    by_cases h0 : k0 = k
    · subst h0
      simp only [hm_get, beq_self_eq_true, if_true, Option.some.injEq] at h
      subst h
      have hnone : hm_get rest k0 = none :=
        hm_get_eq_none_of_not_mem rest k0 hc.1
      rw [hstep, hm_get_hm_extend_none (hm_insert p k0 v0) rest k0 hnone,
        hm_get_hm_insert]
      simp
    · simp only [hm_get, beq_iff_eq, h0, if_false] at h
      rw [hstep]
      exact ih (hm_insert p k0 v0) hc.2 h

/-! ## C2: merge associativity -/

/-- The texture-table lookup of a model (empty when the model has no
table). -/
def model_tget (m : BlockModel) (k : Str) : Option Str :=
  match m.textures with
  | some t => hm_get t k
  | none => none

/-- Representation well-formedness: the texture table, being the image of
a Rust `HashMap`, has duplicate-free keys. -/
def model_wf (m : BlockModel) : Prop :=
  keys_nodup (m.textures.getD [])

instance (m : BlockModel) : Decidable (model_wf m) := by
  unfold model_wf; infer_instance

theorem merge_elements_assoc (A B C : BlockModel) :
    (merge_models (merge_models C B) A).elements
      = (merge_models C (merge_models B A)).elements := by
  simp only [merge_models]
  cases A.elements <;> cases B.elements <;> simp

theorem merge_ao_assoc (A B C : BlockModel) :
    (merge_models (merge_models C B) A).ambientocclusion
      = (merge_models C (merge_models B A)).ambientocclusion := by
  simp only [merge_models]
  cases A.ambientocclusion <;> cases B.ambientocclusion <;> simp

theorem merge_tget_assoc (A B C : BlockModel) (hA : model_wf A)
    (hB : model_wf B) (k : Str) :
    model_tget (merge_models (merge_models C B) A) k
      = model_tget (merge_models C (merge_models B A)) k := by
  cases hta : A.textures with
  | none =>
    cases htb : B.textures with
    | none => simp [merge_models, model_tget, hta, htb]
    | some tB =>
      cases htc : C.textures with
      | none => simp [merge_models, model_tget, hta, htb, htc]
      | some tC => simp [merge_models, model_tget, hta, htb, htc]
  | some tA =>
    have hAn : keys_nodup tA := by
      unfold model_wf at hA; rw [hta] at hA; exact hA
    cases htb : B.textures with
    | none =>
      cases htc : C.textures with
      | none => simp [merge_models, model_tget, hta, htb, htc]
      | some tC => simp [merge_models, model_tget, hta, htb, htc]
    | some tB =>
      have hBn : keys_nodup tB := by
        unfold model_wf at hB; rw [htb] at hB; exact hB
      cases htc : C.textures with
      | none => simp [merge_models, model_tget, hta, htb, htc]
      | some tC =>
        simp only [merge_models, model_tget, hta, htb, htc]
        cases hga : hm_get tA k with
        | some v =>
          rw [hm_get_hm_extend_some (hm_extend tC tB) tA k v hAn hga]
          have hinner : hm_get (hm_extend tB tA) k = some v :=
            hm_get_hm_extend_some tB tA k v hAn hga
          rw [hm_get_hm_extend_some tC (hm_extend tB tA) k v
            (keys_nodup_hm_extend tB tA hBn) hinner]
        | none =>
          rw [hm_get_hm_extend_none (hm_extend tC tB) tA k hga]
          cases hgb : hm_get tB k with
          | some w =>
            rw [hm_get_hm_extend_some tC tB k w hBn hgb]
            have hinner : hm_get (hm_extend tB tA) k = some w := by
              rw [hm_get_hm_extend_none tB tA k hga]; exact hgb
            rw [hm_get_hm_extend_some tC (hm_extend tB tA) k w
              (keys_nodup_hm_extend tB tA hBn) hinner]
          | none =>
            rw [hm_get_hm_extend_none tC tB k hgb]
            have hinner : hm_get (hm_extend tB tA) k = none := by
              rw [hm_get_hm_extend_none tB tA k hga]; exact hgb
            rw [hm_get_hm_extend_none tC (hm_extend tB tA) k hinner]

/-- C2: merging the chain A over B over C in either association — child
over the already-merged parent, or the parent under the already-merged
children — produces the same merged model: identical texture-table
lookups, identical geometry, identical ambient occlusion, and a cleared
parent link on both sides.  The well-formedness hypotheses state the
`HashMap` representation invariant (duplicate-free keys) of each texture
table. -/
theorem c2_merge_assoc (A B C : BlockModel) (hA : model_wf A)
    (hB : model_wf B) (_hC : model_wf C) :
    (∀ k, model_tget (merge_models (merge_models C B) A) k
        = model_tget (merge_models C (merge_models B A)) k) ∧
    (merge_models (merge_models C B) A).elements
      = (merge_models C (merge_models B A)).elements ∧
    (merge_models (merge_models C B) A).ambientocclusion
      = (merge_models C (merge_models B A)).ambientocclusion ∧
    (merge_models (merge_models C B) A).parent = none ∧
    (merge_models C (merge_models B A)).parent = none :=
  ⟨fun k => merge_tget_assoc A B C hA hB k,
   merge_elements_assoc A B C, merge_ao_assoc A B C, rfl, rfl⟩

/-- C2 witness: the theorem applied to three concrete models, read off at
the key both orders must agree on. -/
def modelA2 : BlockModel :=
  { parent := some "minecraft:block/b2".data
    textures := some [("side".data, "minecraft:block/a".data)]
    elements := none, ambientocclusion := some true }

def modelB2 : BlockModel :=
  { parent := some "minecraft:block/c2".data
    textures := some [("side".data, "minecraft:block/b".data),
                      ("top".data, "minecraft:block/bt".data)]
    elements := none, ambientocclusion := none }

def modelC2 : BlockModel :=
  { parent := none
    textures := some [("all".data, "minecraft:block/c".data)]
    elements := none, ambientocclusion := some false }

theorem c2_witness :
    (model_wf modelA2 ∧ model_wf modelB2 ∧ model_wf modelC2) ∧
    model_tget (merge_models (merge_models modelC2 modelB2) modelA2)
        "side".data
      = model_tget (merge_models modelC2 (merge_models modelB2 modelA2))
        "side".data :=
  ⟨⟨by decide, by decide, by decide⟩,
   (c2_merge_assoc modelA2 modelB2 modelC2 (by decide) (by decide)
     (by decide)).1 "side".data⟩

/-! ## C3: texture-variable resolution -/

theorem hm_get_map_value {α β : Type} (t : List (Str × α)) (f : α → β)
    (k : Str) :
    hm_get (t.map (fun kv => (kv.1, f kv.2))) k = (hm_get t k).map f := by
  induction t with
  | nil => rfl
  | cons kv rest ih =>
    obtain ⟨k0, v0⟩ := kv
    by_cases h : k0 = k
    · subst h; simp [hm_get]
    · simp [hm_get, h, ih]

theorem chase_step (t : TextureMap) (cur v : Str) (n : Nat)
    (h1 : starts_hash cur = true) (h2 : hm_get t (trim_hash cur) = some v) :
    chase t cur (n + 1) = chase t v n := by
  simp [chase, h1, h2]

theorem chase_done (t : TextureMap) (cur : Str) (n : Nat)
    (h : starts_hash cur = false) : chase t cur n = cur := by
  cases n <;> simp [chase, h]

theorem chase_missing (t : TextureMap) (cur : Str) (n : Nat)
    (h1 : starts_hash cur = true) (h2 : hm_get t (trim_hash cur) = none) :
    chase t cur n = cur := by
  cases n <;> simp [chase, h1, h2]

theorem resolve_textures_get (m : BlockModel) (t : TextureMap) (k : Str)
    (hmt : m.textures = some t) :
    hm_get (resolve_textures m) k
      = (hm_get t k).map (fun v => chase t v MAX_ITERATIONS) := by
  simp only [resolve_textures, hmt]
  exact hm_get_map_value t (fun v => chase t v MAX_ITERATIONS) k

theorem resolve_one_hop (m : BlockModel) (t : TextureMap) (k1 ref v : Str)
    (hmt : m.textures = some t) (h1 : hm_get t k1 = some ref)
    (h2 : starts_hash ref = true) (h3 : hm_get t (trim_hash ref) = some v)
    (h4 : starts_hash v = false) :
    hm_get (resolve_textures m) k1 = some v := by
  rw [resolve_textures_get m t k1 hmt, h1]
  simp only [Option.map_some']
  rw [show MAX_ITERATIONS = 9 + 1 from rfl, chase_step t ref v 9 h2 h3,
    chase_done t v 9 h4]

/-- A two-element cyclic texture table (`a → #b`, `b → #a`). -/
def cycle_model : BlockModel :=
  { parent := none
    textures := some [("a".data, "#b".data), ("b".data, "#a".data)]
    elements := none, ambientocclusion := none }

/-- C3: texture-variable resolution is total and chase-bounded: it keeps
every key of the table (first conjunct: the resolved table has exactly the
input keys, so no lookup fails); the chain `all → #base`,
`base → minecraft:block/dirt` resolves `all` to `minecraft:block/dirt` in
any table containing it; a key mapped to a `#reference` whose target is
absent resolves to the literal reference string; and the cyclic table
`a → #b`, `b → #a` resolves to the values reached at hop 10 — the
unresolved reference strings — with no error. -/
theorem c3_resolve_textures_spec :
    (∀ (m : BlockModel) (t : TextureMap), m.textures = some t →
      (resolve_textures m).map Prod.fst = t.map Prod.fst) ∧
    (∀ (m : BlockModel) (t : TextureMap), m.textures = some t →
      hm_get t "all".data = some "#base".data →
      hm_get t "base".data = some "minecraft:block/dirt".data →
      hm_get (resolve_textures m) "all".data
        = some "minecraft:block/dirt".data) ∧
    (∀ (m : BlockModel) (t : TextureMap) (k v : Str), m.textures = some t →
      hm_get t k = some v → starts_hash v = true →
      hm_get t (trim_hash v) = none →
      hm_get (resolve_textures m) k = some v) ∧
    resolve_textures cycle_model
      = [("a".data, "#b".data), ("b".data, "#a".data)] := by
  refine ⟨?_, ?_, ?_, by decide⟩
  · intro m t hmt
    simp [resolve_textures, hmt, List.map_map, Function.comp]
  · intro m t hmt hall hbase
    apply resolve_one_hop m t "all".data "#base".data
      "minecraft:block/dirt".data hmt hall (by decide) ?_ (by decide)
    rw [show trim_hash "#base".data = "base".data from by decide]
    exact hbase
  · intro m t k v hmt hk h1 h2
    rw [resolve_textures_get m t k hmt, hk]
    simp only [Option.map_some']
    rw [chase_missing t v MAX_ITERATIONS h1 h2]

/-- C3 witness: the second component of the theorem applied to the model
of the source's own unit test. -/
def test_model : BlockModel :=
  { parent := none
    textures := some [("all".data, "#base".data),
                      ("base".data, "minecraft:block/dirt".data)]
    elements := none, ambientocclusion := none }

theorem c3_witness :
    (test_model.textures
        = some [("all".data, "#base".data),
                ("base".data, "minecraft:block/dirt".data)] ∧
      hm_get [("all".data, "#base".data),
              ("base".data, "minecraft:block/dirt".data)] "all".data
        = some "#base".data) ∧
    hm_get (resolve_textures test_model) "all".data
      = some "minecraft:block/dirt".data :=
  ⟨⟨by decide, by decide⟩,
   c3_resolve_textures_spec.2.1 test_model
     [("all".data, "#base".data),
      ("base".data, "minecraft:block/dirt".data)]
     (by decide) (by decide) (by decide)⟩

/-! ## C4 and C10: blockstate default-model selection -/

/-- C4: `get_default_model` selects by precedence — the empty-string
variant key, then `"normal"`, then the first variant in iteration order;
for definitions without variants, the first multipart case without a
condition, else the first case outright; a weighted-list variant
contributes its first element (weight unused); and with neither variants
nor multipart nothing is returned. -/
theorem c4_get_default_model_spec :
    (∀ (bs : Blockstate) (vs : List (Str × BlockstateVariant))
        (v : BlockstateVariant),
      bs.variants = some vs → hm_get vs "".data = some v →
      get_default_model bs = extract_first_model v) ∧
    (∀ (bs : Blockstate) (vs : List (Str × BlockstateVariant))
        (v : BlockstateVariant),
      bs.variants = some vs → hm_get vs "".data = none →
      hm_get vs "normal".data = some v →
      get_default_model bs = extract_first_model v) ∧
    (∀ (bs : Blockstate) (vs rest : List (Str × BlockstateVariant))
        (k : Str) (v : BlockstateVariant),
      bs.variants = some vs → hm_get vs "".data = none →
      hm_get vs "normal".data = none → vs = (k, v) :: rest →
      get_default_model bs = extract_first_model v) ∧
    (∀ (bs : Blockstate) (mp : List MultipartCase) (c : MultipartCase),
      bs.variants = none → bs.multipart = some mp →
      mp.find? (fun part => part.when0.isNone) = some c →
      get_default_model bs = extract_first_model c.apply) ∧
    (∀ (bs : Blockstate) (mp rest : List MultipartCase) (c : MultipartCase),
      bs.variants = none → bs.multipart = some mp →
      mp.find? (fun part => part.when0.isNone) = none → mp = c :: rest →
      get_default_model bs = extract_first_model c.apply) ∧
    (∀ r : ModelReference,
      extract_first_model (BlockstateVariant.Single r) = some r.model) ∧
    (∀ (r : ModelReference) (rs : List ModelReference),
      extract_first_model (BlockstateVariant.Multiple (r :: rs))
        = some r.model) ∧
    (∀ bs : Blockstate, bs.variants = none → bs.multipart = none →
      get_default_model bs = none) := by
  refine ⟨?_, ?_, ?_, ?_, ?_, ?_, ?_, ?_⟩
  · intro bs vs v hvar hget
    simp only [get_default_model, hvar, hget]
  · intro bs vs v hvar hget1 hget2
    simp only [get_default_model, hvar, hget1, hget2]
  · intro bs vs rest k v hvar hget1 hget2 hcons
    subst hcons
    simp only [get_default_model, hvar, hget1, hget2, List.head?]
  · intro bs mp c hvar hmp hfind
    simp only [get_default_model, hvar, hmp, hfind]
  · intro bs mp rest c hvar hmp hfind hcons
    subst hcons
    simp only [get_default_model, hvar, hmp, hfind, List.head?]
  · intro r; rfl
  · intro r rs; rfl
  · intro bs hvar hmp
    simp only [get_default_model, hvar, hmp]

/-- C4 witness: the first component of the theorem applied to a concrete
blockstate with an empty-string variant key. -/
def stone_ref : ModelReference :=
  { model := "minecraft:block/stone".data, x := none, y := none,
    uvlock := none, weight := none }

def bs_plain : Blockstate :=
  { variants := some [("".data, BlockstateVariant.Single stone_ref)]
    multipart := none }

theorem c4_witness :
    (bs_plain.variants
        = some [("".data, BlockstateVariant.Single stone_ref)] ∧
      hm_get [("".data, BlockstateVariant.Single stone_ref)] "".data
        = some (BlockstateVariant.Single stone_ref)) ∧
    get_default_model bs_plain
      = extract_first_model (BlockstateVariant.Single stone_ref) :=
  ⟨⟨by decide, by decide⟩,
   c4_get_default_model_spec.1 bs_plain
     [("".data, BlockstateVariant.Single stone_ref)]
     (BlockstateVariant.Single stone_ref) (by decide) (by decide)⟩

/-- C10: when the highest-precedence matching variant key (the empty key,
or `"normal"` when the empty key is absent) holds an empty weighted list,
`get_default_model` returns nothing at once — it does not fall through to
other variants or to the multipart cases. -/
theorem c10_empty_weighted_list (bs : Blockstate)
    (vs : List (Str × BlockstateVariant)) (hvar : bs.variants = some vs)
    (h : hm_get vs "".data = some (BlockstateVariant.Multiple []) ∨
      (hm_get vs "".data = none ∧
        hm_get vs "normal".data = some (BlockstateVariant.Multiple []))) :
    get_default_model bs = none := by
  rcases h with h | ⟨h1, h2⟩
  · simp only [get_default_model, hvar, h, extract_first_model,
      List.head?, Option.map_none']
  · simp only [get_default_model, hvar, h1, h2, extract_first_model,
      List.head?, Option.map_none']

/-- C10 witness: a blockstate whose empty-key variant is an empty list and
which nevertheless carries a resolvable multipart section still yields
nothing, via the theorem. -/
def bs_empty_list : Blockstate :=
  { variants := some [("".data, BlockstateVariant.Multiple [])]
    multipart := some
      [{ when0 := none, apply := BlockstateVariant.Single stone_ref }] }

theorem c10_witness :
    (bs_empty_list.variants
        = some [("".data, BlockstateVariant.Multiple [])] ∧
      hm_get [("".data, BlockstateVariant.Multiple [])] "".data
        = some (BlockstateVariant.Multiple [])) ∧
    get_default_model bs_empty_list = none :=
  ⟨⟨by decide, by decide⟩,
   c10_empty_weighted_list bs_empty_list
     [("".data, BlockstateVariant.Multiple [])] (by decide)
     (Or.inl (by decide))⟩

/-! ## C7 and C8: baseline cache -/

theorem extract_entries_marker (l : List ZipEntry) :
    ∀ fs : CacheFS, ((extract_entries fs l).2.1).marker = fs.marker := by
  induction l with
  | nil => intro fs; rfl
  | cons e rest ih =>
    intro fs
    by_cases he : e.ok = true
    · simp only [extract_entries, he, if_true]
      exact ih _
    · simp [extract_entries, he]

theorem extract_entries_ok_iff (l : List ZipEntry) :
    ∀ fs : CacheFS,
      ((extract_entries fs l).1 = .ok () ↔ ∀ e ∈ l, e.ok = true) := by
  induction l with
  | nil => intro fs; simp [extract_entries]
  | cons e rest ih =>
    intro fs
    by_cases he : e.ok = true
    · simp only [extract_entries, he, if_true]
      rw [ih]
      simp [he]
    · simp [extract_entries, he]

/-- C7: initialization is idempotent — with the marker present it does
zero extraction work and returns the cache path with the state untouched;
and after any successful run the returned path is the cache path, the
marker is set, and a second run is a zero-work no-op returning the same
path. -/
theorem c7_init_idempotent :
    (∀ fs : CacheFS, fs.marker = true →
      init_vanilla_textures fs = (.ok vanilla_cache_dir, fs, 0)) ∧
    (∀ (fs : CacheFS) (p : Str) (fs2 : CacheFS) (n : Nat),
      init_vanilla_textures fs = (.ok p, fs2, n) →
      p = vanilla_cache_dir ∧ fs2.marker = true ∧
      init_vanilla_textures fs2 = (.ok vanilla_cache_dir, fs2, 0)) := by
  constructor
  · intro fs h
    simp [init_vanilla_textures, h]
  · intro fs p fs2 n h
    by_cases hm : fs.marker = true
    · simp only [init_vanilla_textures, hm, if_true, Prod.mk.injEq,
        Except.ok.injEq] at h
      obtain ⟨h1, h2, h3⟩ := h
      subst h1; subst h2
      exact ⟨rfl, hm, by simp [init_vanilla_textures, hm]⟩
    · rw [Bool.not_eq_true] at hm
      simp only [init_vanilla_textures, hm, Bool.false_eq_true,
        if_false] at h
      cases hj : fs.jar with
      | none => rw [hj] at h; simp at h
      | some entries =>
        rw [hj] at h
        simp only [extract_vanilla_textures, hm, Bool.false_eq_true,
          if_false] at h
        split at h
        next u fs3 n3 heq =>
          simp only [Prod.mk.injEq, Except.ok.injEq] at h
          obtain ⟨h1, h2, h3⟩ := h
          subst h1; subst h2
          refine ⟨rfl, rfl, ?_⟩
          simp [init_vanilla_textures]
        next msg fs3 n3 heq =>
          simp at h

/-- C7 witness: the first component of the theorem applied to a state with
the marker present. -/
def fs_marked : CacheFS :=
  { marker := true
    cacheFiles := ["assets/minecraft/textures/block/stone.png".data]
    jar := none }

theorem c7_witness :
    fs_marked.marker = true ∧
    init_vanilla_textures fs_marked = (.ok vanilla_cache_dir, fs_marked, 0) :=
  ⟨rfl, c7_init_idempotent.1 fs_marked rfl⟩

/-- C8: extraction is atomic with respect to the marker — starting without
the marker, if any selected entry fails then the call fails and the
resulting state still has no marker; and whenever the resulting state
carries the marker, every selected entry succeeded and the call returned
the cache path. -/
theorem c8_marker_atomicity (fs : CacheFS) (entries : List ZipEntry)
    (hm : fs.marker = false) (res : Except Str Str) (fs2 : CacheFS) (n : Nat)
    (h : extract_vanilla_textures fs entries = (res, fs2, n)) :
    ((∃ e ∈ entries.filter (fun e => should_extract e.path), e.ok = false) →
      (∃ msg, res = .error msg) ∧ fs2.marker = false) ∧
    (fs2.marker = true →
      (∀ e ∈ entries.filter (fun e => should_extract e.path), e.ok = true) ∧
      res = .ok vanilla_cache_dir) := by
  simp only [extract_vanilla_textures, hm, Bool.false_eq_true, if_false] at h
  split at h
  next u fs3 n3 heq =>
    have hall : ∀ e ∈ entries.filter (fun e => should_extract e.path),
        e.ok = true :=
      (extract_entries_ok_iff _
        { marker := false, cacheFiles := [], jar := fs.jar }).mp
        (by rw [heq])
    simp only [Prod.mk.injEq] at h
    obtain ⟨h1, h2, h3⟩ := h
    subst h1; subst h2
    constructor
    · rintro ⟨e, hmem, hbad⟩
      rw [hall e hmem] at hbad
      cases hbad
    · intro _
      exact ⟨hall, rfl⟩
  next msg fs3 n3 heq =>
    simp only [Prod.mk.injEq] at h
    obtain ⟨h1, h2, h3⟩ := h
    subst h1; subst h2
    have hmk : fs3.marker = false := by
      have hx := extract_entries_marker
        (entries.filter (fun e => should_extract e.path))
        { marker := false, cacheFiles := [], jar := fs.jar }
      rw [heq] at hx
      simpa using hx
    constructor
    · intro _
      exact ⟨⟨msg, rfl⟩, hmk⟩
    · intro hcontra
      rw [hmk] at hcontra
      cases hcontra

/-- C8 witness: a batch with one failing selected entry fails and leaves
the marker unset, via the first component of the theorem. -/
def entry_good : ZipEntry :=
  { path := "assets/minecraft/textures/block/stone.png".data, ok := true }

def entry_bad : ZipEntry :=
  { path := "assets/minecraft/models/block/stone.json".data, ok := false }

def fs_fresh : CacheFS :=
  { marker := false, cacheFiles := [], jar := some [entry_good, entry_bad] }

def fs_after_fail : CacheFS :=
  { marker := false
    cacheFiles := ["assets/minecraft/textures/block/stone.png".data]
    jar := some [entry_good, entry_bad] }

theorem c8_witness :
    (fs_fresh.marker = false ∧
      extract_vanilla_textures fs_fresh [entry_good, entry_bad]
        = (.error "Failed to read from JAR".data, fs_after_fail, 2)) ∧
    ((∃ msg, (.error "Failed to read from JAR".data : Except Str Str)
        = .error msg) ∧
      fs_after_fail.marker = false) :=
  ⟨⟨rfl, by decide⟩,
   (c8_marker_atomicity fs_fresh [entry_good, entry_bad] rfl
       (.error "Failed to read from JAR".data) fs_after_fail 2
       (by decide)).1
     ⟨entry_bad, by decide, rfl⟩⟩

/-! ## C6: duplicate-freedom of indexed file lists -/

theorem mem_map_push {α : Type} (m : List (Str × List α)) (k : Str) (v : α)
    (kv : Str × List α) (h : kv ∈ map_push m k v) :
    kv ∈ m ∨ kv = (k, [v]) ∨ ∃ vs, (k, vs) ∈ m ∧ kv = (k, vs ++ [v]) := by
  induction m with
  | nil =>
    simp only [map_push, List.mem_singleton] at h
    exact Or.inr (Or.inl h)
  | cons kv0 rest ih =>
    obtain ⟨k0, vs0⟩ := kv0
    by_cases h0 : k0 = k
    · subst h0
      simp only [map_push, beq_self_eq_true, if_true, List.mem_cons] at h
      rcases h with h | h
      · exact Or.inr (Or.inr ⟨vs0, List.mem_cons_self _ _, h⟩)
      · exact Or.inl (List.mem_cons_of_mem _ h)
    · simp only [map_push, beq_iff_eq, h0, if_false, List.mem_cons] at h
      rcases h with h | h
      · exact Or.inl (by simp [h])
      · rcases ih h with h2 | h2 | ⟨vs, hvs, h2⟩
        · exact Or.inl (List.mem_cons_of_mem _ h2)
        · exact Or.inr (Or.inl h2)
        · exact Or.inr (Or.inr ⟨vs, List.mem_cons_of_mem _ hvs, h2⟩)

theorem index_pack_aux_nodup (files : List Str) :
    ∀ m : List (Str × List Str), files.Nodup →
      (∀ kv ∈ m, kv.2.Nodup ∧ ∀ f ∈ kv.2, f ∉ files) →
      ∀ kv ∈ files.foldl
        (fun m file =>
          match extract_asset_id file with
          | some asset_id => map_push m asset_id file
          | none => m) m,
        kv.2.Nodup := by
  induction files with
  | nil =>
    intro m _ hinv kv hkv
    exact (hinv kv hkv).1
  | cons f rest ih =>
    intro m hnd hinv
    simp only [List.foldl_cons]
    have hfrest : f ∉ rest := (List.nodup_cons.mp hnd).1
    apply ih _ (List.nodup_cons.mp hnd).2
    intro kv hkv
    cases hex : extract_asset_id f with
    | none =>
      rw [hex] at hkv
      refine ⟨(hinv kv hkv).1, ?_⟩
      intro x hx hmem
      exact (hinv kv hkv).2 x hx (List.mem_cons_of_mem _ hmem)
    | some aid =>
      rw [hex] at hkv
      rcases mem_map_push m aid f kv hkv with hm | hm | ⟨vs, hvs, hm⟩
      · refine ⟨(hinv kv hm).1, ?_⟩
        intro x hx hmem
        exact (hinv kv hm).2 x hx (List.mem_cons_of_mem _ hmem)
      · subst hm
        refine ⟨List.nodup_singleton f, ?_⟩
        intro x hx hmem
        rw [List.mem_singleton.mp hx] at hmem
        exact hfrest hmem
      · subst hm
        obtain ⟨hvnd, hvout⟩ := hinv (aid, vs) hvs
        have hfvs : f ∉ vs := fun hmem =>
          hvout f hmem (List.mem_cons_self _ _)
        refine ⟨?_, ?_⟩
        · simp [List.nodup_append, hvnd, hfvs]
        · intro x hx hmem
          rcases List.mem_append.mp hx with hx2 | hx2
          · exact hvout x hx2 (List.mem_cons_of_mem _ hmem)
          · rw [List.mem_singleton.mp hx2] at hmem
            exact hfrest hmem

theorem index_pack_nodup (files : List Str) (h : files.Nodup) :
    ∀ kv ∈ index_pack files, kv.2.Nodup := by
  intro kv hkv
  exact index_pack_aux_nodup files [] h (by simp) kv hkv

theorem record_merge_nodup (r : AssetRecord) (files : List Str)
    (h : r.files.Nodup) : (record_merge r files).files.Nodup := by
  unfold record_merge
  suffices hgen : ∀ (l : List Str) (fs : List Str), fs.Nodup →
      (l.foldl (fun fs file => if fs.contains file then fs else fs ++ [file])
        fs).Nodup by
    exact hgen files r.files h
  intro l
  induction l with
  | nil => intro fs hnd; exact hnd
  | cons file rest ih =>
    intro fs hnd
    simp only [List.foldl_cons]
    apply ih
    by_cases hc : fs.contains file = true
    · have hmem : file ∈ fs := by simpa using hc
      simp [hmem, hnd]
    · have hnotmem : file ∉ fs := by
        intro hmem
        simp at hc
        exact hc hmem
      simp [hnotmem, List.nodup_append, hnd]

theorem mem_assets_insert (m : List (Str × AssetRecord)) (aid : Str)
    (files : List Str) (kv : Str × AssetRecord)
    (h : kv ∈ assets_insert m aid files) :
    kv ∈ m ∨
    kv = (aid, { id := aid, labels := extract_labels aid, files := files }) ∨
    ∃ k r, (k, r) ∈ m ∧ kv = (k, record_merge r files) := by
  induction m with
  | nil =>
    simp only [assets_insert, List.mem_singleton] at h
    exact Or.inr (Or.inl h)
  | cons kv0 rest ih =>
    obtain ⟨k0, r0⟩ := kv0
    by_cases h0 : k0 = aid
    · subst h0
      simp only [assets_insert, beq_self_eq_true, if_true,
        List.mem_cons] at h
      rcases h with h | h
      · exact Or.inr (Or.inr ⟨k0, r0, List.mem_cons_self _ _, h⟩)
      · exact Or.inl (List.mem_cons_of_mem _ h)
    · simp only [assets_insert, beq_iff_eq, h0, if_false,
        List.mem_cons] at h
      rcases h with h | h
      · exact Or.inl (by simp [h])
      · rcases ih h with h2 | h2 | ⟨k, r, hkr, h2⟩
        · exact Or.inl (List.mem_cons_of_mem _ h2)
        · exact Or.inr (Or.inl h2)
        · exact Or.inr (Or.inr ⟨k, r, List.mem_cons_of_mem _ hkr, h2⟩)

theorem inner_fold_nodup (entries : List (Str × List Str)) (pid : Str) :
    ∀ st : IndexState,
      (∀ kv ∈ st.1, kv.2.files.Nodup) →
      (∀ e ∈ entries, e.2.Nodup) →
      ∀ kv ∈ (entries.foldl (index_step pid) st).1, kv.2.files.Nodup := by
  induction entries with
  | nil => intro st hinv _ kv hkv; exact hinv kv hkv
  | cons e rest ih =>
    intro st hinv hents
    simp only [List.foldl_cons]
    apply ih
    · intro kv hkv
      simp only [index_step] at hkv
      rcases mem_assets_insert st.1 e.1 e.2 kv hkv with hm | hm |
        ⟨k, r, hkr, hm⟩
      · exact hinv kv hm
      · rw [hm]
        exact hents e (List.mem_cons_self _ _)
      · rw [hm]
        exact record_merge_nodup r e.2 (hinv (k, r) hkr)
    · intro e2 he2
      exact hents e2 (List.mem_cons_of_mem _ he2)

theorem outer_fold_nodup (packs : List Pack) :
    ∀ st : IndexState,
      (∀ kv ∈ st.1, kv.2.files.Nodup) →
      (∀ p ∈ packs, p.files.Nodup) →
      ∀ kv ∈ (packs.foldl index_pack_step st).1, kv.2.files.Nodup := by
  induction packs with
  | nil => intro st hinv _ kv hkv; exact hinv kv hkv
  | cons pack rest ih =>
    intro st hinv hpacks
    simp only [List.foldl_cons]
    apply ih
    · intro kv hkv
      unfold index_pack_step at hkv
      exact inner_fold_nodup (index_pack pack.files) pack.id st hinv
        (index_pack_nodup pack.files (hpacks pack (List.mem_cons_self _ _)))
        kv hkv
    · intro p hp
      exact hpacks p (List.mem_cons_of_mem _ hp)

theorem mem_insert_record (l : List AssetRecord) (r x : AssetRecord)
    (h : x ∈ insert_record r l) : x = r ∨ x ∈ l := by
  induction l with
  | nil => simp [insert_record] at h; exact Or.inl h
  | cons r0 rest ih =>
    simp only [insert_record] at h
    by_cases hle : str_le r0.id r.id = true
    · rw [if_pos hle] at h
      rcases List.mem_cons.mp h with h2 | h2
      · exact Or.inr (by simp [h2])
      · rcases ih h2 with h3 | h3
        · exact Or.inl h3
        · exact Or.inr (List.mem_cons_of_mem _ h3)
    · rw [if_neg hle] at h
      rcases List.mem_cons.mp h with h2 | h2
      · exact Or.inl h2
      · exact Or.inr h2

theorem mem_sort_records (l : List AssetRecord) (x : AssetRecord)
    (h : x ∈ sort_records l) : x ∈ l := by
  induction l with
  | nil => simp [sort_records] at h
  | cons r rest ih =>
    simp only [sort_records] at h
    rcases mem_insert_record (sort_records rest) r x h with h2 | h2
    · exact h2 ▸ List.mem_cons_self _ _
    · exact List.mem_cons_of_mem _ (ih h2)

/-- C6 counterexample: a single pack whose enumeration lists the same
texture path twice (as a zip archive can) produces a record whose file
list holds that path twice — the claimed invariant fails on the first
insertion for an identifier. -/
def pack_dup : Pack :=
  { id := "p1".data
    files := ["assets/minecraft/textures/block/a.png".data,
              "assets/minecraft/textures/block/a.png".data] }

theorem c6_counterexample :
    ¬ (∀ r ∈ (index_assets [pack_dup]).1, r.files.Nodup) := by decide

/-- C6 (amended): whenever every pack's own enumeration is duplicate-free,
every record produced by `index_assets` has a duplicate-free file list —
cross-pack merging always deduplicates; only a duplicate inside a single
pack's enumeration (kept verbatim by the first insertion for its
identifier) can survive to the output. -/
theorem c6_files_nodup (packs : List Pack)
    (h : ∀ p ∈ packs, p.files.Nodup) :
    ∀ r ∈ (index_assets packs).1, r.files.Nodup := by
  intro r hr
  simp only [index_assets] at hr
  have hr2 := mem_sort_records _ r hr
  obtain ⟨kv, hkv, hsnd⟩ := List.mem_map.mp hr2
  have hnd := outer_fold_nodup packs ([], []) (by simp) h kv hkv
  rw [← hsnd]
  exact hnd

/-- C6 witness: two packs providing overlapping duplicate-free file sets
for one identifier; the merged record keeps a duplicate-free list, via the
amended theorem. -/
def pack_one : Pack :=
  { id := "p1".data
    files := ["assets/minecraft/textures/block/a.png".data] }

def pack_two : Pack :=
  { id := "p2".data
    files := ["assets/minecraft/textures/block/a.png".data,
              "assets/minecraft/textures/block/a.jpg".data] }

def record_a : AssetRecord :=
  { id := "minecraft:block/a".data
    labels := ["minecraft".data, "block".data, "a".data]
    files := ["assets/minecraft/textures/block/a.png".data,
              "assets/minecraft/textures/block/a.jpg".data] }

theorem c6_witness :
    ((∀ p ∈ [pack_one, pack_two], p.files.Nodup) ∧
      record_a ∈ (index_assets [pack_one, pack_two]).1) ∧
    record_a.files.Nodup :=
  ⟨⟨by decide, by decide⟩,
   c6_files_nodup [pack_one, pack_two] (by decide) record_a (by decide)⟩

end WeaverBird
